import Mathlib

/-!
Verification of the women-in-mathematics adapter
(`prepare.py` and `submit.py`) against its specification.

Strings are modelled as `List Char`.  Python string primitives are embedded
as follows:
* `s.lower()`            → `pyLower` (`Char.toLower` on each character; the
  source data is ASCII, where Lean's `Char.toLower` agrees with Python);
* `s.split()`            → `pySplit` (split on whitespace, discarding empty
  chunks, exactly as Python `str.split` with no argument);
* `s.replace(a, b)` with a one-character pattern and a one-character
  replacement → `replaceChar` (Python replaces every occurrence);
* `s.replace(a, "")` with a one-character pattern → `removeChar`
  (Python removes every occurrence);
* `s.replace(pat, "")` with a multi-character pattern → `replaceDel`
  (left-to-right scan deleting every non-overlapping occurrence,
  exactly Python's `str.replace` semantics).
-/

/-- Boolean test that `pat` is an initial segment of `s`. -/
def listStartsWith : List Char → List Char → Bool
  | [], _ => true
  | _ :: _, [] => false
  | p :: ps, c :: cs => p == c && listStartsWith ps cs

/-- Boolean test that `pat` occurs as a contiguous subsequence of `s`
(Python's `pat in s`). -/
def containsSeq (pat : List Char) : List Char → Bool
  | [] => pat.isEmpty
  | c :: cs => listStartsWith pat (c :: cs) || containsSeq pat cs

/-- Fuel-indexed left-to-right deletion of every occurrence of `pat`.
The fuel only makes the recursion structural; `replaceDel` always supplies
enough fuel. -/
def replaceDelFuel (pat : List Char) : Nat → List Char → List Char
  | _, [] => []
  | 0, s => s
  | fuel + 1, c :: cs =>
    if !pat.isEmpty && listStartsWith pat (c :: cs) then
      replaceDelFuel pat fuel ((c :: cs).drop pat.length)
    else
      c :: replaceDelFuel pat fuel cs

/-- Python `s.replace(pat, "")`: delete every (non-overlapping, leftmost)
occurrence of `pat` in `s`. -/
def replaceDel (pat s : List Char) : List Char :=
  replaceDelFuel pat s.length s

/-- Python `s.replace(a, b)` for one-character `a`, `b`. -/
def replaceChar (a b : Char) (s : List Char) : List Char :=
  s.map (fun c => if c = a then b else c)

/-- Python `s.replace(a, "")` for a one-character `a`. -/
def removeChar (a : Char) (s : List Char) : List Char :=
  s.filter (fun c => c ≠ a)

/-- Python `s.lower()` (ASCII model). -/
def pyLower (s : List Char) : List Char :=
  s.map Char.toLower

/-- Helper for `pySplit`: accumulates the current chunk (reversed). -/
def pySplitAux : List Char → List Char → List (List Char)
  | [], acc => if acc.isEmpty then [] else [acc.reverse]
  | c :: cs, acc =>
    if c.isWhitespace then
      if acc.isEmpty then pySplitAux cs [] else acc.reverse :: pySplitAux cs []
    else
      pySplitAux cs (c :: acc)

/-- Python `s.split()`: split on runs of whitespace, no empty chunks. -/
def pySplit (s : List Char) : List (List Char) :=
  pySplitAux s []

/- ------------------------------------------------------------------
   prepare.py — WomenInMathAdapter
   ------------------------------------------------------------------ -/

/-- `_build_text_mapping`, lines 79-83: defensive cleanup applied to every
candidate: `c.replace("(", "").replace(")", "").replace(".", "")`. -/
def cleanCand (c : List Char) : List Char :=
  removeChar '.' (removeChar ')' (removeChar '(' c))

/-- `_build_text_mapping`, lines 53-83: the candidate strings generated for
one full name, in generation order. -/
def candidates (name : List Char) : List (List Char) :=
  let parts := pySplit name
  -- lines 58-68: lastname_firstname candidates
  let cs1 : List (List Char) :=
    if 2 ≤ parts.length then
      let lastname := pyLower (parts.getLastD [])
      let firstnames := parts.dropLast.map pyLower
      [lastname ++ '_' :: List.intercalate ['_'] firstnames] ++
        (if 1 < firstnames.length then
          [lastname ++ '_' :: firstnames.getLastD [],
           lastname ++ '_' :: firstnames.headD []]
        else [])
    else []
  -- lines 71-74: firstname_lastname
  let cs2 : List (List Char) :=
    if 2 ≤ parts.length then
      [pyLower (parts.headD []) ++ '_' :: pyLower (parts.getLastD [])]
    else []
  -- line 77: full name lowercased, spaces→underscores, periods/commas removed
  let c5 := removeChar ',' (removeChar '.' (replaceChar ' ' '_' (pyLower name)))
  ((cs1 ++ cs2) ++ [c5]).map cleanCand

/-- `_build_text_mapping`, line 89: comparison key of a text file,
`text_file.name.replace(".pdf.txt", "").replace(".txt", "")`. -/
def stem (fileName : List Char) : List Char :=
  replaceDel (".txt").toList (replaceDel (".pdf.txt").toList fileName)

/-- `_build_text_mapping`, lines 86-96: the file matched to one name —
first candidate (in generation order) matching any file (in listing order);
comparison is `stem.lower() == candidate.lower()`. -/
def matchName (textFiles : List (List Char)) (name : List Char) :
    Option (List Char) :=
  (candidates name).findSome? fun cand =>
    textFiles.find? fun tf => pyLower (stem tf) == pyLower cand

/-- `map_entity`, lines 169 and 173: the local slug of a full name,
`name.lower().replace(" ", "_").replace(".", "").replace(",", "")
.replace("(", "").replace(")", "")`. -/
def slug (name : List Char) : List Char :=
  removeChar ')' (removeChar '(' (removeChar ','
    (removeChar '.' (replaceChar ' ' '_' (pyLower name)))))

/-- One result of the external `wbsearchentities` call (id, description). -/
structure SearchResult where
  id : List Char
  description : List Char
deriving DecidableEq

/-- Observable behaviour of the external search call made by
`lookup_wikidata`: either some exception is raised during the call, or a
response with a status code and a parsed result list comes back. -/
inductive SearchOutcome where
  | exc
  | response (status : Nat) (results : List SearchResult)
deriving DecidableEq

/-- `lookup_wikidata`, lines 122-155, as a function of the observable
behaviour of the network call.  Exceptions are caught inside the function
(lines 153-155) and produce `none`, so the model is total: the Python
function never lets an exception escape. -/
def lookup_wikidata (so : SearchOutcome) : Option (List Char) :=
  match so with
  | .exc => none
  | .response status results =>
    if status ≠ 200 then none
    else
      (results.find? fun r =>
        containsSeq ("mathematician").toList (pyLower r.description)).map
        (fun r => r.id)

/-- The dictionary returned by `map_entity` (lines 187-191). -/
structure EntityMapping where
  entity_id : List Char
  entity_ids : Option (List (List Char))
  confidence : ℚ
deriving DecidableEq

/-- The `ValueError`s `map_entity` can raise (lines 180 and 185). -/
inductive PrepError where
  | invalidEntityId (id : List Char)
  | invalidAltId (id : List Char)
deriving DecidableEq

/-- `map_entity`, lines 157-191, as a function of the validator's behaviour
and the search outcome.  `Except.error` models a raised `ValueError`. -/
def map_entity (validate : List Char → Bool) (so : SearchOutcome)
    (name : List Char) : Except PrepError EntityMapping :=
  let wikidata_qid := lookup_wikidata so
  let local_id := slug name
  -- line 164: `if wikidata_qid:` — Python truthiness (None and "" falsy)
  let r : EntityMapping :=
    match wikidata_qid with
    | some qid =>
      if qid.isEmpty then
        ⟨("local:women-in-math:").toList ++ local_id, none, 0.5⟩
      else
        ⟨("wikidata:").toList ++ qid,
         some [("local:women-in-math:").toList ++ local_id], 0.8⟩
    | none => ⟨("local:women-in-math:").toList ++ local_id, none, 0.5⟩
  if !validate r.entity_id then
    .error (.invalidEntityId r.entity_id)
  else
    -- lines 182-185: `if entity_ids:` then validate each; `find?` on the
    -- empty list is `none`, matching Python's falsy empty list
    match r.entity_ids with
    | none => .ok r
    | some l =>
      match l.find? (fun e => !validate e) with
      | some e => .error (.invalidAltId e)
      | none => .ok r

/-- What happens when `prepare` fetches one person's biography text
(`get_text`, lines 193-200, plus the read inside the per-record `try`):
the mapped file is missing / the person has no mapped file (`None`),
the file is read successfully, or reading raises an exception. -/
inductive TextOutcome where
  | noFile
  | content (text : List Char)
  | readError
deriving DecidableEq

/-- One row of `personal.csv` together with the observable behaviour of the
external collaborators while this row is processed. -/
structure PersonRun where
  full_name : List Char
  birthyear : Option Int
  deathyear : Option Int
  birthplace : Option (List Char)
  search : SearchOutcome
  textOutcome : TextOutcome
deriving DecidableEq

/-- One author record built in `prepare`, lines 218-230. -/
structure Author where
  entity_id : List Char
  entity_ids : Option (List (List Char))
  entity_type : List Char
  confidence : ℚ
  name : List Char
  birth_year : Option Int
  death_year : Option Int
  birthplace : Option (List Char)
  field : List Char
deriving DecidableEq

/-- One entry of the texts list built in `prepare`, lines 238-241. -/
structure TextEntry where
  entity_id : List Char
  text : List Char
deriving DecidableEq

/-- The author dictionary of `prepare`, lines 218-230. -/
def mkAuthor (p : PersonRun) (m : EntityMapping) : Author :=
  { entity_id := m.entity_id
    entity_ids := m.entity_ids
    entity_type := ("person").toList
    confidence := m.confidence
    name := p.full_name
    birth_year := p.birthyear
    death_year := p.deathyear
    birthplace := p.birthplace
    field := ("wikidata:Q395").toList }

/-- The body of the per-person loop of `prepare`, lines 209-247.  The
`try`/`except` wraps the whole body: an error from `map_entity` skips the
record before anything is appended; a read error (`TextOutcome.readError`)
is raised after `authors.append(author)` (line 232) has already run, so the
author stays appended while nothing is added to `texts`.  Line 236
`if text:` makes the empty string falsy. -/
def prepareStep (validate : List Char → Bool)
    (acc : List Author × List TextEntry) (p : PersonRun) :
    List Author × List TextEntry :=
  match map_entity validate p.search p.full_name with
  | .error _ => acc
  | .ok m =>
    let authors := acc.1 ++ [mkAuthor p m]
    match p.textOutcome with
    | .readError => (authors, acc.2)
    | .noFile => (authors, acc.2)
    | .content t =>
      if t.isEmpty then (authors, acc.2)
      else (authors, acc.2 ++ [⟨m.entity_id, t⟩])

/-- `prepare`, lines 202-258: the authors list of the dataset document and
the texts list, accumulated over the records in input order. -/
def prepare (validate : List Char → Bool) (persons : List PersonRun) :
    List Author × List TextEntry :=
  persons.foldl (prepareStep validate) ([], [])

/- ------------------------------------------------------------------
   submit.py — WomenInMathSubmitter
   ------------------------------------------------------------------ -/

/-- Observable behaviour of one HTTP POST made by the submitter: either a
response with a status code, a connection error, or some other exception. -/
inductive SubmitOutcome where
  | status (code : Nat)
  | connError
  | exc
deriving DecidableEq

/-- `submit_texts`, line 99: one ingest request succeeds exactly when the
response has status 200 (a connection error or other exception is caught at
lines 108-110 and counts as a failure). -/
def itemSuccess (o : SubmitOutcome) : Bool :=
  match o with
  | .status code => code == 200
  | .connError => false
  | .exc => false

/-- Running state of the ingest loop of `submit_texts`, lines 80-110:
the success/failure tallies plus the requests attempted so far (one POST is
issued per loop iteration, line 90). -/
structure IngestState where
  success : Nat
  failed : Nat
  attempted : List SubmitOutcome
deriving DecidableEq

/-- One iteration of the ingest loop, lines 83-110: issue the request and
bump exactly one of the two tallies. -/
def ingestStep (st : IngestState) (o : SubmitOutcome) : IngestState :=
  { success := if itemSuccess o then st.success + 1 else st.success
    failed := if itemSuccess o then st.failed else st.failed + 1
    attempted := st.attempted ++ [o] }

/-- The whole ingest loop, run over the items of `texts.json` in list
order. -/
def ingestLoop (items : List SubmitOutcome) : IngestState :=
  items.foldl ingestStep ⟨0, 0, []⟩

/-- Contents of `texts.json` as `submit_texts` sees them, lines 64-76:
the file may be absent, present without a `"texts"` key (`data.get`
defaults to `[]`), or present with a list of items.  Each item is
represented by the outcome of the POST it would trigger. -/
inductive TextsJson where
  | absent
  | noKey
  | texts (items : List SubmitOutcome)
deriving DecidableEq

/-- `submit_texts`, lines 61-116: returns 0 when the file is absent
(line 68), when the `"texts"` key is missing, or when the list is empty
(lines 74-76, `if not texts`); otherwise runs the ingest loop and returns
the success count (line 116).  Total: the Python function catches every
per-item exception and raises nothing itself. -/
def submit_texts (tj : TextsJson) : Nat :=
  match tj with
  | .absent => 0
  | .noKey => 0
  | .texts items =>
    if items.isEmpty then 0 else (ingestLoop items).success

/-- The ingest POSTs actually issued by `submit_texts`: the early returns
at lines 68 and 76 happen before any request; requests are issued only
inside the loop. -/
def submitTextsAttempts (tj : TextsJson) : List SubmitOutcome :=
  match tj with
  | .absent => []
  | .noKey => []
  | .texts items =>
    if items.isEmpty then [] else (ingestLoop items).attempted

/-- Observable behaviour of the metadata submission, `submit_metadata`,
lines 22-59: `dataset.json` may be missing (line 27), else the POST either
returns a status code, fails to connect, or raises some other exception. -/
inductive MetaOutcome where
  | missingFile
  | response (status : Nat)
  | connError
  | exc
deriving DecidableEq

/-- `submit_metadata`, lines 22-59: `True` exactly when the dataset file
exists and the POST returns status 200; every failure path returns
`False`. -/
def submit_metadata (m : MetaOutcome) : Bool :=
  match m with
  | .missingFile => false
  | .response status => status == 200
  | .connError => false
  | .exc => false

/-- Result of one `submit_all` run: whether phase 1 succeeded, the value
`submit_texts` returned (`none` when phase 2 never ran), and the ingest
POSTs issued during the run. -/
structure SubmitAllResult where
  metadataOk : Bool
  ingested : Option Nat
  ingestAttempts : List SubmitOutcome
deriving DecidableEq

/-- `submit_all`, lines 118-135: phase 1, then — only if it succeeded —
phase 2 (`if not self.submit_metadata(): ... return`, lines 124-126). -/
def submit_all (m : MetaOutcome) (tj : TextsJson) : SubmitAllResult :=
  if submit_metadata m then
    { metadataOk := true
      ingested := some (submit_texts tj)
      ingestAttempts := submitTextsAttempts tj }
  else
    { metadataOk := false, ingested := none, ingestAttempts := [] }

/- ------------------------------------------------------------------
   Spec-side definitions and claim-side helper definitions
   ------------------------------------------------------------------ -/

/-- Boolean test that `p` is a final segment of `s`. -/
def listEndsWith (p s : List Char) : Bool :=
  listStartsWith p.reverse s.reverse

/-- The comparison key as the spec words it (claim C2): remove one
TRAILING `.pdf.txt` or `.txt` suffix from the file name, touching nothing
elsewhere.  This is the claim's candidate semantics, to be compared with
the code's `stem`. -/
def specTrailingStem (fileName : List Char) : List Char :=
  if listEndsWith ((".pdf.txt").toList) fileName then
    fileName.take (fileName.length - 8)
  else if listEndsWith ((".txt").toList) fileName then
    fileName.take (fileName.length - 4)
  else fileName

/-- The candidate sequence as claim C6 words it: surname = last
whitespace-separated part, given-names = the rest; in order, surname
joined with all lowercased given-names, then (when there is more than one
given-name) surname plus the last given-name and surname plus the first
given-name, then first-part_last-part; every candidate carries the
defensive parenthesis/period strip of spec step 4. -/
def specCandidatesC6 (name : List Char) : List (List Char) :=
  let parts := pySplit name
  let surname := pyLower (parts.getLastD [])
  let givens := parts.dropLast.map pyLower
  ([surname ++ '_' :: List.intercalate ['_'] givens] ++
    (if 1 < givens.length then
      [surname ++ '_' :: givens.getLastD [],
       surname ++ '_' :: givens.headD []]
    else []) ++
    [pyLower (parts.headD []) ++ '_' :: surname]).map cleanCand

/-- Claim C4's hypothesis: the external search yields no match — an
exception during the call, a non-200 response, or a 200 response none of
whose results has "mathematician" in its description. -/
def noMatchSearch (so : SearchOutcome) : Prop :=
  so = .exc ∨
    ∃ status results, so = .response status results ∧
      (status ≠ 200 ∨
        ∀ r ∈ results,
          containsSeq (("mathematician").toList) (pyLower r.description)
            = false)

/-- The author record one person contributes to `prepare`'s authors list,
if any: exactly when `map_entity` returns normally. -/
def mkAuthorOpt (validate : List Char → Bool) (p : PersonRun) :
    Option Author :=
  match map_entity validate p.search p.full_name with
  | .error _ => none
  | .ok m => some (mkAuthor p m)

/-- The entry one person contributes to `prepare`'s texts list, if any:
exactly when `map_entity` returns normally and the text file is read
successfully with non-empty contents. -/
def mkTextOpt (validate : List Char → Bool) (p : PersonRun) :
    Option TextEntry :=
  match map_entity validate p.search p.full_name with
  | .error _ => none
  | .ok m =>
    match p.textOutcome with
    | .content t => if t.isEmpty then none else some ⟨m.entity_id, t⟩
    | .noFile => none
    | .readError => none

/-- The concrete record refuting claim C1: entity resolution succeeds (the
external search raises, so the local fallback is used and the
all-accepting validator passes it), but reading the matched text file
raises an exception. -/
def cexPerson : PersonRun :=
  { full_name := ("Rachel Adams").toList
    birthyear := some 1900
    deathyear := none
    birthplace := none
    search := .exc
    textOutcome := .readError }

example : pySplit ("Rachel Adams").toList =
    [("Rachel").toList, ("Adams").toList] := by decide
example : slug ("Rachel Adams").toList = ("rachel_adams").toList := by decide
example : stem ("adams_rachel.pdf.txt").toList = ("adams_rachel").toList := by
  decide

-- scratch tests
example : ("arnoldy_nicholas").toList ∈
    candidates ("Sister Mary Nicholas Arnoldy").toList := by decide
example : matchName [("arnoldy_nicholas.txt").toList]
    ("Sister Mary Nicholas Arnoldy").toList =
    some (("arnoldy_nicholas.txt").toList) := by decide
example : stem ("a.txt.txt").toList = ("a").toList := by decide
example : candidates ("Sister Mary Nicholas Arnoldy").toList =
    [("arnoldy_sister_mary_nicholas").toList, ("arnoldy_nicholas").toList,
     ("arnoldy_sister").toList, ("sister_arnoldy").toList,
     ("sister_mary_nicholas_arnoldy").toList] := by decide
example : matchName [("adams_rachel.pdf.txt").toList] ("Rachel Adams").toList
    = some (("adams_rachel.pdf.txt").toList) := by decide
example :
    map_entity (fun _ => true) SearchOutcome.exc ("Rachel Adams").toList =
    .ok ⟨("local:women-in-math:rachel_adams").toList, none, 0.5⟩ := rfl
example :
    prepare (fun _ => true)
      [⟨("Rachel Adams").toList, some 1900, none, none, .exc, .readError⟩] =
    ([⟨("local:women-in-math:rachel_adams").toList, none, ("person").toList,
       0.5, ("Rachel Adams").toList, some 1900, none, none,
       ("wikidata:Q395").toList⟩], []) := rfl

/- ------------------------------------------------------------------
   Helper lemmas: listStartsWith / containsSeq / replaceDel
   ------------------------------------------------------------------ -/

theorem listStartsWith_iff (p s : List Char) :
    listStartsWith p s = true ↔ ∃ t, s = p ++ t := by
  induction p generalizing s with
  | nil => simp [listStartsWith]
  | cons a p ih =>
    cases s with
    | nil => simp [listStartsWith]
    | cons c cs =>
      simp only [listStartsWith, Bool.and_eq_true, beq_iff_eq, ih,
        List.cons_append, List.cons.injEq]
      constructor
      · rintro ⟨rfl, t, rfl⟩; exact ⟨t, rfl, rfl⟩
      · rintro ⟨t, rfl, rfl⟩; exact ⟨rfl, t, rfl⟩

theorem listStartsWith_append_self (p t : List Char) :
    listStartsWith p (p ++ t) = true :=
  (listStartsWith_iff p (p ++ t)).mpr ⟨t, rfl⟩

theorem listStartsWith_append_left {p : List Char} (s t : List Char)
    (h : p.length ≤ s.length) :
    listStartsWith p (s ++ t) = listStartsWith p s := by
  induction p generalizing s with
  | nil => simp [listStartsWith]
  | cons a p ih =>
    cases s with
    | nil => simp at h
    | cons c cs =>
      simp only [List.cons_append, listStartsWith, List.append_eq]
      rw [ih cs (by simpa using Nat.le_of_succ_le_succ h)]

theorem containsSeq_iff (p s : List Char) :
    containsSeq p s = true ↔ ∃ a b, s = a ++ p ++ b := by
  induction s with
  | nil =>
    simp only [containsSeq, List.isEmpty_iff]
    constructor
    · rintro rfl; exact ⟨[], [], rfl⟩
    · rintro ⟨a, b, hab⟩
      rcases List.append_eq_nil.mp hab.symm with ⟨h1, rfl⟩
      exact (List.append_eq_nil.mp h1).2
  | cons c cs ih =>
    simp only [containsSeq, Bool.or_eq_true, listStartsWith_iff, ih]
    constructor
    · rintro (⟨t, ht⟩ | ⟨a, b, rfl⟩)
      · exact ⟨[], t, by simpa using ht⟩
      · exact ⟨c :: a, b, rfl⟩
    · rintro ⟨a, b, hab⟩
      cases a with
      | nil => exact Or.inl ⟨b, by simpa using hab⟩
      | cons x xs =>
        simp only [List.cons_append, List.cons.injEq] at hab
        exact Or.inr ⟨xs, b, hab.2⟩

theorem containsSeq_of_startsWith {p s : List Char}
    (h : listStartsWith p s = true) : containsSeq p s = true := by
  obtain ⟨t, rfl⟩ := (listStartsWith_iff p s).mp h
  exact (containsSeq_iff p (p ++ t)).mpr ⟨[], t, rfl⟩

theorem listEndsWith_iff (p s : List Char) :
    listStartsWith p.reverse s.reverse = true ↔ ∃ pre, s = pre ++ p := by
  rw [listStartsWith_iff]
  constructor
  · rintro ⟨t, ht⟩
    refine ⟨t.reverse, ?_⟩
    have := congrArg List.reverse ht
    simpa using this
  · rintro ⟨pre, rfl⟩
    exact ⟨pre.reverse, by simp⟩

theorem replaceDelFuel_congr (pat : List Char) :
    ∀ (n m : Nat) (s : List Char), s.length ≤ n → s.length ≤ m →
      replaceDelFuel pat n s = replaceDelFuel pat m s := by
  intro n
  induction n with
  | zero =>
    intro m s hn _
    have : s = [] := List.length_eq_zero.mp (Nat.le_zero.mp hn)
    subst this
    cases m <;> rfl
  | succ n ih =>
    intro m s hn hm
    cases s with
    | nil => cases m <;> rfl
    | cons c cs =>
      cases m with
      | zero => simp at hm
      | succ m =>
        simp only [replaceDelFuel]
        by_cases hcond : (!pat.isEmpty && listStartsWith pat (c :: cs)) = true
        · rw [if_pos hcond, if_pos hcond]
          have hplen : 1 ≤ pat.length := by
            rcases pat with _ | ⟨p, ps⟩
            · simp at hcond
            · simp
          have hlen : ((c :: cs).drop pat.length).length ≤ n := by
            simp only [List.length_drop, List.length_cons]
            simp only [List.length_cons] at hn
            omega
          have hlen' : ((c :: cs).drop pat.length).length ≤ m := by
            simp only [List.length_drop, List.length_cons]
            simp only [List.length_cons] at hm
            omega
          exact ih m _ hlen hlen'
        · rw [if_neg hcond, if_neg hcond]
          have hlen : cs.length ≤ n := by
            simp only [List.length_cons] at hn; omega
          have hlen' : cs.length ≤ m := by
            simp only [List.length_cons] at hm; omega
          rw [ih m cs hlen hlen']

theorem replaceDel_nil (pat : List Char) : replaceDel pat [] = [] := rfl

theorem replaceDel_cons_pos {pat : List Char} (c : Char) (cs : List Char)
    (hne : pat ≠ []) (hpre : listStartsWith pat (c :: cs) = true) :
    replaceDel pat (c :: cs) = replaceDel pat ((c :: cs).drop pat.length) := by
  have hbe : pat.isEmpty = false := by
    rcases pat with _ | ⟨p, ps⟩
    · exact absurd rfl hne
    · rfl
  show replaceDelFuel pat (c :: cs).length (c :: cs) = _
  simp only [List.length_cons, replaceDelFuel, hbe, hpre, Bool.not_false,
    Bool.true_and, if_pos]
  have hplen : 1 ≤ pat.length := by
    rcases pat with _ | ⟨p, ps⟩
    · exact absurd rfl hne
    · simp
  apply replaceDelFuel_congr
  · simp only [List.length_drop, List.length_cons]; omega
  · exact Nat.le_refl _

theorem replaceDel_cons_neg {pat : List Char} (c : Char) (cs : List Char)
    (hpre : listStartsWith pat (c :: cs) = false) :
    replaceDel pat (c :: cs) = c :: replaceDel pat cs := by
  show replaceDelFuel pat (c :: cs).length (c :: cs) = _
  simp only [List.length_cons, replaceDelFuel, hpre, Bool.and_false, if_neg,
    Bool.false_eq_true, not_false_iff]
  rfl

theorem replaceDel_of_not_contains (pat : List Char) :
    ∀ s : List Char, containsSeq pat s = false → replaceDel pat s = s := by
  intro s
  induction s with
  | nil => intro _; rfl
  | cons c cs ih =>
    intro h
    have h2 : listStartsWith pat (c :: cs) = false ∧
        containsSeq pat cs = false := by
      simpa [containsSeq, Bool.or_eq_false_iff] using h
    rw [replaceDel_cons_neg c cs h2.1, ih h2.2]

theorem startsWith_straddle {pat s : List Char}
    (h : listStartsWith pat (s ++ pat) = true) (hlen : s.length ≤ pat.length) :
    listStartsWith (pat.drop s.length) pat = true := by
  obtain ⟨t, ht⟩ := (listStartsWith_iff _ _).mp h
  apply (listStartsWith_iff _ _).mpr
  refine ⟨t, ?_⟩
  have h1 : (s ++ pat).drop s.length = pat := List.drop_left s pat
  rw [ht, List.drop_append_of_le_length hlen] at h1
  exact h1.symm

/-- Deleting every occurrence of `pat` from `base ++ pat` leaves `base`,
provided `pat` does not occur in `base` and `pat` has no self-overlap
(no proper nonempty suffix of `pat` is also one of its initial
segments). -/
theorem replaceDel_append_self (pat : List Char) (hne : pat ≠ [])
    (hd : ∀ k, k < pat.length → 1 ≤ k →
      listStartsWith (pat.drop k) pat = false) :
    ∀ base : List Char, containsSeq pat base = false →
      replaceDel pat (base ++ pat) = base := by
  intro base
  induction base with
  | nil =>
    intro _
    rcases pat with _ | ⟨p, ps⟩
    · exact absurd rfl hne
    · rw [List.nil_append,
        replaceDel_cons_pos p ps hne
          ((listStartsWith_iff _ _).mpr ⟨[], by simp⟩),
        List.drop_length]
      rfl
  | cons c m ih =>
    intro h
    have h2 : listStartsWith pat (c :: m) = false ∧
        containsSeq pat m = false := by
      simpa [containsSeq, Bool.or_eq_false_iff] using h
    have key : listStartsWith pat ((c :: m) ++ pat) = false := by
      by_cases hlen : pat.length ≤ (c :: m).length
      · rw [listStartsWith_append_left _ _ hlen]
        exact h2.1
      · cases hsw : listStartsWith pat ((c :: m) ++ pat) with
        | false => rfl
        | true =>
          have hstr := startsWith_straddle hsw (Nat.le_of_not_le hlen)
          have hk := hd (c :: m).length (Nat.lt_of_not_le hlen) (by simp)
          rw [hstr] at hk
          exact absurd hk (by simp)
    rw [List.cons_append, replaceDel_cons_neg c (m ++ pat)
      (by simpa using key), ih h2.2]

theorem listEndsWith_eq (p s : List Char) :
    listEndsWith p s = true ↔ ∃ pre, s = pre ++ p :=
  listEndsWith_iff p s

theorem txt_split : (".pdf.txt").toList = (".pdf").toList ++ (".txt").toList :=
  rfl

theorem contains_txt_of_contains_pdf8 {s : List Char}
    (h : containsSeq ((".pdf.txt").toList) s = true) :
    containsSeq ((".txt").toList) s = true := by
  obtain ⟨a, b, rfl⟩ := (containsSeq_iff _ _).mp h
  apply (containsSeq_iff _ _).mpr
  exact ⟨a ++ (".pdf").toList, b, by rw [txt_split]; simp [List.append_assoc]⟩

theorem contains_pdf4_of_contains_pdf8 {s : List Char}
    (h : containsSeq ((".pdf.txt").toList) s = true) :
    containsSeq ((".pdf").toList) s = true := by
  obtain ⟨a, b, rfl⟩ := (containsSeq_iff _ _).mp h
  apply (containsSeq_iff _ _).mpr
  exact ⟨a, (".txt").toList ++ b, by rw [txt_split]; simp [List.append_assoc]⟩

theorem not_contains_pdf8_of_not_txt {s : List Char}
    (h : containsSeq ((".txt").toList) s = false) :
    containsSeq ((".pdf.txt").toList) s = false := by
  cases hc : containsSeq ((".pdf.txt").toList) s with
  | false => rfl
  | true => rw [contains_txt_of_contains_pdf8 hc] at h; exact absurd h (by simp)

theorem txt_no_overlap :
    ∀ k, k < ((".txt").toList).length → 1 ≤ k →
      listStartsWith (((".txt").toList).drop k) ((".txt").toList) = false := by
  decide

theorem pdf8_no_overlap :
    ∀ k, k < ((".pdf.txt").toList).length → 1 ≤ k →
      listStartsWith (((".pdf.txt").toList).drop k) ((".pdf.txt").toList)
        = false := by
  decide

theorem contains_pdf8_append_txt {base : List Char}
    (hpdf : containsSeq ((".pdf").toList) base = false) :
    containsSeq ((".pdf.txt").toList) (base ++ (".txt").toList) = false := by
  cases hc : containsSeq ((".pdf.txt").toList) (base ++ (".txt").toList) with
  | false => rfl
  | true =>
    exfalso
    obtain ⟨a, b, heq⟩ := (containsSeq_iff _ _).mp hc
    have hlen : base.length = a.length + 4 + b.length := by
      have := congrArg List.length heq
      simp [List.length_append] at this
      omega
    have h4 : ((".pdf").toList).length = 4 := rfl
    rw [txt_split, ← List.append_assoc,
      List.append_assoc (a ++ (".pdf").toList)] at heq
    -- heq : base ++ ".txt" = (a ++ ".pdf") ++ (".txt" ++ b)
    have htake := congrArg (List.take (a.length + 4)) heq
    rw [List.take_append_of_le_length (by omega),
      List.take_left' (by simp [List.length_append, h4])] at htake
    -- htake : base.take (a.length + 4) = a ++ ".pdf"
    have hbase : base = a ++ (".pdf").toList ++ base.drop (a.length + 4) := by
      conv_lhs => rw [← List.take_append_drop (a.length + 4) base]
      rw [htake]
    have : containsSeq ((".pdf").toList) base = true :=
      (containsSeq_iff _ _).mpr ⟨a, base.drop (a.length + 4), hbase⟩
    rw [this] at hpdf
    exact absurd hpdf (by simp)

theorem stem_append_txt {base : List Char}
    (htxt : containsSeq ((".txt").toList) base = false)
    (hpdf : containsSeq ((".pdf").toList) base = false) :
    stem (base ++ (".txt").toList) = base := by
  unfold stem
  rw [replaceDel_of_not_contains _ _ (contains_pdf8_append_txt hpdf)]
  exact replaceDel_append_self _ (by decide) txt_no_overlap base htxt

theorem stem_append_pdf8 {base : List Char}
    (htxt : containsSeq ((".txt").toList) base = false) :
    stem (base ++ (".pdf.txt").toList) = base := by
  unfold stem
  rw [replaceDel_append_self _ (by decide) pdf8_no_overlap base
    (not_contains_pdf8_of_not_txt htxt)]
  exact replaceDel_of_not_contains _ _ htxt

theorem stem_no_txt {base : List Char}
    (htxt : containsSeq ((".txt").toList) base = false) :
    stem base = base := by
  unfold stem
  rw [replaceDel_of_not_contains _ _ (not_contains_pdf8_of_not_txt htxt)]
  exact replaceDel_of_not_contains _ _ htxt

theorem specTrailingStem_append_txt {base : List Char}
    (hpdf : containsSeq ((".pdf").toList) base = false) :
    specTrailingStem (base ++ (".txt").toList) = base := by
  have hend_pdf :
      listEndsWith ((".pdf.txt").toList) (base ++ (".txt").toList) = false := by
    cases h : listEndsWith ((".pdf.txt").toList) (base ++ (".txt").toList) with
    | false => rfl
    | true =>
      exfalso
      obtain ⟨pre, hpre⟩ := (listEndsWith_eq _ _).mp h
      rw [txt_split, ← List.append_assoc] at hpre
      have hb : base = pre ++ (".pdf").toList := List.append_cancel_right hpre
      have hcon : containsSeq ((".pdf").toList) base = true :=
        (containsSeq_iff _ _).mpr ⟨pre, [], by simp [hb]⟩
      rw [hcon] at hpdf
      exact absurd hpdf (by simp)
  have hend_txt :
      listEndsWith ((".txt").toList) (base ++ (".txt").toList) = true :=
    (listEndsWith_eq _ _).mpr ⟨base, rfl⟩
  have hlen : (base ++ (".txt").toList).length - 4 = base.length := by
    simp [List.length_append]
  simp only [specTrailingStem, hend_pdf, hend_txt, Bool.false_eq_true,
    if_false, if_true, hlen]
  exact List.take_left' rfl

theorem specTrailingStem_append_pdf8 (base : List Char) :
    specTrailingStem (base ++ (".pdf.txt").toList) = base := by
  have hend :
      listEndsWith ((".pdf.txt").toList) (base ++ (".pdf.txt").toList)
        = true :=
    (listEndsWith_eq _ _).mpr ⟨base, rfl⟩
  have hlen : (base ++ (".pdf.txt").toList).length - 8 = base.length := by
    simp [List.length_append]
  simp only [specTrailingStem, hend, if_true, hlen]
  exact List.take_left' rfl

theorem specTrailingStem_no_txt {base : List Char}
    (htxt : containsSeq ((".txt").toList) base = false) :
    specTrailingStem base = base := by
  have hend_txt : listEndsWith ((".txt").toList) base = false := by
    cases h : listEndsWith ((".txt").toList) base with
    | false => rfl
    | true =>
      exfalso
      obtain ⟨pre, hpre⟩ := (listEndsWith_eq _ _).mp h
      have hcon : containsSeq ((".txt").toList) base = true :=
        (containsSeq_iff _ _).mpr ⟨pre, [], by simp [hpre]⟩
      rw [hcon] at htxt
      exact absurd htxt (by simp)
  have hend_pdf : listEndsWith ((".pdf.txt").toList) base = false := by
    cases h : listEndsWith ((".pdf.txt").toList) base with
    | false => rfl
    | true =>
      exfalso
      obtain ⟨pre, hpre⟩ := (listEndsWith_eq _ _).mp h
      have hcon : containsSeq ((".pdf.txt").toList) base = true :=
        (containsSeq_iff _ _).mpr ⟨pre, [], by simp [hpre]⟩
      rw [not_contains_pdf8_of_not_txt htxt] at hcon
      exact absurd hcon (by simp)
  simp only [specTrailingStem, hend_txt, hend_pdf, Bool.false_eq_true,
    if_false]

/-- Claim C2 is false as stated: the code computes the comparison key with
Python `str.replace`, which removes EVERY occurrence of `.pdf.txt` and then
every occurrence of `.txt`, not only a trailing suffix.  On the file name
`a.txt.txt` the code's key is `a`, while removal of only the trailing
suffix would give `a.txt`. -/
theorem stem_cex_C2 :
    stem (("a.txt.txt").toList) = ("a").toList ∧
    specTrailingStem (("a.txt.txt").toList) = ("a.txt").toList ∧
    stem (("a.txt.txt").toList) ≠ specTrailingStem (("a.txt.txt").toList) :=
  ⟨by decide, by decide, by decide⟩

/-- Claim C2, amended: the comparison key removes every occurrence of
`.pdf.txt` and then every occurrence of `.txt` from the file name (Python
`str.replace` semantics); whenever the part of the name before the trailing
suffix contains neither `.txt` nor `.pdf`, this agrees with the claimed
removal of a single trailing `.pdf.txt` or `.txt` suffix. -/
theorem stem_trailing_agree_C2 (base : List Char)
    (htxt : containsSeq ((".txt").toList) base = false)
    (hpdf : containsSeq ((".pdf").toList) base = false) :
    (stem (base ++ (".txt").toList) = base ∧
      stem (base ++ (".pdf.txt").toList) = base ∧
      stem base = base) ∧
    (specTrailingStem (base ++ (".txt").toList) = base ∧
      specTrailingStem (base ++ (".pdf.txt").toList) = base ∧
      specTrailingStem base = base) :=
  ⟨⟨stem_append_txt htxt hpdf, stem_append_pdf8 htxt, stem_no_txt htxt⟩,
    ⟨specTrailingStem_append_txt hpdf, specTrailingStem_append_pdf8 base,
      specTrailingStem_no_txt htxt⟩⟩

/-- Witness for `stem_trailing_agree_C2` at the concrete base
`adams_rachel`. -/
theorem stem_trailing_agree_C2_witness :
    (containsSeq ((".txt").toList) (("adams_rachel").toList) = false ∧
      containsSeq ((".pdf").toList) (("adams_rachel").toList) = false) ∧
    ((stem (("adams_rachel").toList ++ (".txt").toList)
        = ("adams_rachel").toList ∧
      stem (("adams_rachel").toList ++ (".pdf.txt").toList)
        = ("adams_rachel").toList ∧
      stem (("adams_rachel").toList) = ("adams_rachel").toList) ∧
     (specTrailingStem (("adams_rachel").toList ++ (".txt").toList)
        = ("adams_rachel").toList ∧
      specTrailingStem (("adams_rachel").toList ++ (".pdf.txt").toList)
        = ("adams_rachel").toList ∧
      specTrailingStem (("adams_rachel").toList)
        = ("adams_rachel").toList)) :=
  ⟨⟨by decide, by decide⟩,
    stem_trailing_agree_C2 (("adams_rachel").toList) (by decide) (by decide)⟩

theorem char_toNat_ofNat {n : Nat} (h : n.isValidChar) :
    (Char.ofNat n).toNat = n := by
  rw [Char.ofNat, dif_pos h]
  rfl

theorem toLower_toLower (c : Char) :
    Char.toLower (Char.toLower c) = Char.toLower c := by
  simp only [Char.toLower]
  by_cases h : c.toNat ≥ 65 ∧ c.toNat ≤ 90
  · rw [if_pos h]
    have hv : Nat.isValidChar (c.toNat + 32) := Or.inl (by omega)
    rw [if_neg (by rw [char_toNat_ofNat hv]; omega)]
  · rw [if_neg h, if_neg h]

theorem list_map_id {l : List Char} {f : Char → Char}
    (h : ∀ c ∈ l, f c = c) : l.map f = l := by
  rw [List.map_congr_left h]
  exact List.map_id l

theorem mem_removeChar {c a : Char} {s : List Char}
    (h : c ∈ removeChar a s) : c ∈ s ∧ c ≠ a := by
  simpa only [removeChar, List.mem_filter, decide_eq_true_eq] using h

/-- Every character of a slug is already lowercase and is none of the
characters the slug construction replaces or removes. -/
theorem slug_chars {c : Char} {s : List Char} (h : c ∈ slug s) :
    Char.toLower c = c ∧ c ≠ ' ' ∧ c ≠ '.' ∧ c ≠ ',' ∧ c ≠ '(' ∧ c ≠ ')' := by
  obtain ⟨h, h6⟩ := mem_removeChar h
  obtain ⟨h, h5⟩ := mem_removeChar h
  obtain ⟨h, h4⟩ := mem_removeChar h
  obtain ⟨h, h3⟩ := mem_removeChar h
  simp only [replaceChar, pyLower, List.map_map, List.mem_map,
    Function.comp] at h
  obtain ⟨b, hb, hc⟩ := h
  by_cases hsp : Char.toLower b = ' '
  · rw [if_pos hsp] at hc
    subst hc
    exact ⟨by decide, by decide, by decide, by decide, by decide, by decide⟩
  · rw [if_neg hsp] at hc
    subst hc
    exact ⟨toLower_toLower b, hsp, h3, h4, h5, h6⟩

/-- Claim C7: the local slug function is idempotent. -/
theorem slug_idem_C7 (s : List Char) : slug (slug s) = slug s := by
  have h1 : pyLower (slug s) = slug s :=
    list_map_id fun c hc => (slug_chars hc).1
  have h2 : replaceChar ' ' '_' (slug s) = slug s :=
    list_map_id fun c hc => if_neg (slug_chars hc).2.1
  have h3 : removeChar '.' (slug s) = slug s :=
    List.filter_eq_self.mpr fun c hc => by simp [(slug_chars hc).2.2.1]
  have h4 : removeChar ',' (slug s) = slug s :=
    List.filter_eq_self.mpr fun c hc => by simp [(slug_chars hc).2.2.2.1]
  have h5 : removeChar '(' (slug s) = slug s :=
    List.filter_eq_self.mpr fun c hc => by simp [(slug_chars hc).2.2.2.2.1]
  have h6 : removeChar ')' (slug s) = slug s :=
    List.filter_eq_self.mpr fun c hc => by simp [(slug_chars hc).2.2.2.2.2]
  show removeChar ')' (removeChar '(' (removeChar ','
    (removeChar '.' (replaceChar ' ' '_' (pyLower (slug s)))))) = slug s
  rw [h1, h2, h3, h4, h5, h6]

theorem lsw_false_of_head {a b : Char} {p s : List Char} (hne : a ≠ b) :
    listStartsWith (a :: p) (b :: s) = false := by
  simp [listStartsWith, hne]

theorem not_lsw_local_wd (qid : List Char) :
    listStartsWith (("local:").toList) ((("wikidata:").toList) ++ qid)
      = false := by
  have h1 : (("wikidata:").toList) ++ qid
      = 'w' :: ((("ikidata:").toList) ++ qid) := rfl
  have h2 : ("local:").toList = 'l' :: (("ocal:").toList) := rfl
  rw [h1, h2]
  exact lsw_false_of_head (by decide)

theorem not_lsw_wd_local (x : List Char) :
    listStartsWith (("wikidata:").toList)
      ((("local:women-in-math:").toList) ++ x) = false := by
  have h1 : (("local:women-in-math:").toList) ++ x
      = 'l' :: ((("ocal:women-in-math:").toList) ++ x) := rfl
  have h2 : ("wikidata:").toList = 'w' :: (("ikidata:").toList) := rfl
  rw [h1, h2]
  exact lsw_false_of_head (by decide)

theorem lsw_local_local (x : List Char) :
    listStartsWith (("local:").toList)
      ((("local:women-in-math:").toList) ++ x) = true := by
  have h1 : (("local:women-in-math:").toList) ++ x
      = (("local:").toList) ++ ((("women-in-math:").toList) ++ x) := by
    rw [show ("local:women-in-math:").toList
      = ("local:").toList ++ ("women-in-math:").toList from rfl,
      List.append_assoc]
  rw [h1]
  exact listStartsWith_append_self _ _

/-- Every normal return of `map_entity` is either the local-fallback
mapping or a wikidata mapping for a non-empty Q-code. -/
theorem map_entity_ok_shape {validate : List Char → Bool}
    {so : SearchOutcome} {name : List Char} {m : EntityMapping}
    (h : map_entity validate so name = .ok m) :
    m = ⟨("local:women-in-math:").toList ++ slug name, none, 0.5⟩ ∨
    ∃ qid, qid.isEmpty = false ∧
      m = ⟨("wikidata:").toList ++ qid,
        some [("local:women-in-math:").toList ++ slug name], 0.8⟩ := by
  rcases hq : lookup_wikidata so with _ | qid
  · by_cases hv : validate (("local:women-in-math:").toList ++ slug name) <;>
      simp only [map_entity, hq, hv, Bool.not_true, Bool.not_false,
        if_true, if_false, Bool.false_eq_true, reduceCtorEq,
        Except.ok.injEq] at h
    left
    exact h.symm
  · by_cases hqe : qid.isEmpty
    · by_cases hv : validate (("local:women-in-math:").toList ++ slug name) <;>
        simp only [map_entity, hq, hqe, hv, Bool.not_true, Bool.not_false,
          if_true, if_false, Bool.false_eq_true, reduceCtorEq,
          Except.ok.injEq] at h
      left
      exact h.symm
    · by_cases hv : validate (("wikidata:").toList ++ qid) <;>
        by_cases hv2 :
          validate (("local:women-in-math:").toList ++ slug name) <;>
        simp only [map_entity, hq, hqe, hv, hv2, List.find?, Bool.not_true,
          Bool.not_false, if_true, if_false, Bool.false_eq_true,
          reduceCtorEq, Except.ok.injEq] at h
      right
      refine ⟨qid, by simpa using hqe, h.symm⟩

/-- Claim C3: whenever `map_entity` returns normally — for any behaviour of
the external search and of the validator — the returned mapping has
confidence 0.5 or 0.8, its entity_id starts with exactly one of the
prefixes "wikidata:" and "local:", and the confidence is 0.8 exactly when
the prefix is "wikidata:". -/
theorem map_entity_invariant_C3 (validate : List Char → Bool)
    (so : SearchOutcome) (name : List Char) (m : EntityMapping)
    (h : map_entity validate so name = .ok m) :
    (m.confidence = 0.5 ∨ m.confidence = 0.8) ∧
    ((listStartsWith (("wikidata:").toList) m.entity_id = true ∧
      listStartsWith (("local:").toList) m.entity_id = false) ∨
     (listStartsWith (("local:").toList) m.entity_id = true ∧
      listStartsWith (("wikidata:").toList) m.entity_id = false)) ∧
    (m.confidence = 0.8 ↔
      listStartsWith (("wikidata:").toList) m.entity_id = true) := by
  rcases map_entity_ok_shape h with rfl | ⟨qid, hqe, rfl⟩
  · refine ⟨Or.inl rfl, Or.inr ⟨lsw_local_local _, not_lsw_wd_local _⟩, ?_⟩
    constructor
    · intro h08
      exact absurd h08 (by norm_num)
    · intro hw
      have hfalse := not_lsw_wd_local (slug name)
      rw [hw] at hfalse
      exact absurd hfalse (by simp)
  · exact ⟨Or.inr rfl,
      Or.inl ⟨listStartsWith_append_self _ _, not_lsw_local_wd qid⟩,
      ⟨fun _ => listStartsWith_append_self _ _, fun _ => rfl⟩⟩

/-- Witness for `map_entity_invariant_C3`: a concrete search response whose
first result is described as a mathematician, with an all-accepting
validator. -/
theorem map_entity_invariant_C3_witness :
    map_entity (fun _ => true)
        (.response 200 [⟨("Q7259").toList, ("English mathematician").toList⟩])
        (("Ada Lovelace").toList) =
      .ok ⟨("wikidata:Q7259").toList,
        some [("local:women-in-math:ada_lovelace").toList], 0.8⟩ ∧
    (((⟨("wikidata:Q7259").toList,
        some [("local:women-in-math:ada_lovelace").toList], 0.8⟩ :
          EntityMapping).confidence = 0.5 ∨
      (⟨("wikidata:Q7259").toList,
        some [("local:women-in-math:ada_lovelace").toList], 0.8⟩ :
          EntityMapping).confidence = 0.8) ∧
     ((listStartsWith (("wikidata:").toList) (("wikidata:Q7259").toList)
          = true ∧
       listStartsWith (("local:").toList) (("wikidata:Q7259").toList)
          = false) ∨
      (listStartsWith (("local:").toList) (("wikidata:Q7259").toList)
          = true ∧
       listStartsWith (("wikidata:").toList) (("wikidata:Q7259").toList)
          = false)) ∧
     ((⟨("wikidata:Q7259").toList,
        some [("local:women-in-math:ada_lovelace").toList], 0.8⟩ :
          EntityMapping).confidence = 0.8 ↔
       listStartsWith (("wikidata:").toList) (("wikidata:Q7259").toList)
          = true)) := by
  have h : map_entity (fun _ => true)
      (.response 200 [⟨("Q7259").toList, ("English mathematician").toList⟩])
      (("Ada Lovelace").toList) =
      .ok ⟨("wikidata:Q7259").toList,
        some [("local:women-in-math:ada_lovelace").toList], 0.8⟩ := rfl
  exact ⟨h, map_entity_invariant_C3 _ _ _ _ h⟩

/-- Claim C4: whenever the external search yields no match — an exception
during the call, a non-200 response, or a result list with no
mathematician — `lookup_wikidata` returns `None` (it never lets an
exception escape, see its model), and `map_entity` (with a validator that
accepts the local identifier) returns the local fallback mapping: the
"local:women-in-math:" slug identifier, confidence 0.5, and no alternate
identifier list. -/
theorem lookup_fallback_C4 (so : SearchOutcome) (h : noMatchSearch so) :
    lookup_wikidata so = none ∧
    ∀ (validate : List Char → Bool) (name : List Char),
      validate (("local:women-in-math:").toList ++ slug name) = true →
      map_entity validate so name =
        .ok ⟨("local:women-in-math:").toList ++ slug name, none, 0.5⟩ := by
  have hnone : lookup_wikidata so = none := by
    rcases h with rfl | ⟨st, rs, rfl, hcase⟩
    · rfl
    · rcases hcase with hst | hres
      · simp [lookup_wikidata, hst]
      · by_cases hst : st = 200
        · subst hst
          simp only [lookup_wikidata, ne_eq, not_true_eq_false, if_false,
            ite_false]
          rw [List.find?_eq_none.mpr fun r hr => by rw [hres r hr]; simp]
          rfl
        · simp [lookup_wikidata, hst]
  refine ⟨hnone, ?_⟩
  intro validate name hv
  simp only [map_entity, hnone, hv, Bool.not_true, Bool.false_eq_true,
    if_false]

/-- Witness for `lookup_fallback_C4`: a 200 response with an empty result
list, an all-accepting validator, and the name "Rachel Adams". -/
theorem lookup_fallback_C4_witness :
    noMatchSearch (.response 200 []) ∧
    lookup_wikidata (.response 200 []) = none ∧
    map_entity (fun _ => true) (.response 200 [])
        (("Rachel Adams").toList) =
      .ok ⟨("local:women-in-math:rachel_adams").toList, none, 0.5⟩ := by
  have hnm : noMatchSearch (.response 200 []) :=
    Or.inr ⟨200, [], rfl, Or.inr (by simp)⟩
  have H := lookup_fallback_C4 (.response 200 []) hnm
  exact ⟨hnm, H.1, H.2 (fun _ => true) (("Rachel Adams").toList) rfl⟩

theorem prepare_foldl (validate : List Char → Bool) :
    ∀ (persons : List PersonRun) (acc : List Author × List TextEntry),
      persons.foldl (prepareStep validate) acc =
        (acc.1 ++ persons.filterMap (mkAuthorOpt validate),
         acc.2 ++ persons.filterMap (mkTextOpt validate)) := by
  intro persons
  induction persons with
  | nil => intro acc; simp
  | cons p ps ih =>
    intro acc
    rw [List.foldl_cons, ih]
    cases hm : map_entity validate p.search p.full_name with
    | error e =>
      simp [prepareStep, mkAuthorOpt, mkTextOpt, hm, List.filterMap_cons]
    | ok m =>
      cases ht : p.textOutcome with
      | noFile =>
        simp [prepareStep, mkAuthorOpt, mkTextOpt, hm, ht,
          List.filterMap_cons, List.append_assoc]
      | readError =>
        simp [prepareStep, mkAuthorOpt, mkTextOpt, hm, ht,
          List.filterMap_cons, List.append_assoc]
      | content t =>
        by_cases hte : t.isEmpty <;>
          simp [prepareStep, mkAuthorOpt, mkTextOpt, hm, ht, hte,
            List.filterMap_cons, List.append_assoc]

/-- Claim C1 is false as stated: in `prepare`, `authors.append(author)`
(line 232) runs BEFORE the text file is read (line 235), so an exception
raised while reading the matched text file is caught by the per-record
handler only after the author has already been appended.  Concretely, for
a record whose entity resolution succeeds but whose text read raises
(`TextOutcome.readError`), the dataset document's authors list contains
that record's author. -/
theorem prepare_cex_C1 :
    cexPerson.textOutcome = TextOutcome.readError ∧
    prepare (fun _ => true) [cexPerson] =
      ([⟨("local:women-in-math:rachel_adams").toList, none,
         ("person").toList, 0.5, ("Rachel Adams").toList, some 1900, none,
         none, ("wikidata:Q395").toList⟩], []) ∧
    (prepare (fun _ => true) [cexPerson]).1.length = 1 :=
  ⟨rfl, rfl, rfl⟩

/-- Claim C1, amended: a record raising during entity mapping (including
validation failure) contributes to neither the authors list nor the texts
list; a record raising while reading the matched text file keeps its
already-appended author record in the authors list but contributes nothing
to the texts list; in every case processing continues with the next
record, each record's contribution being independent of the others.  The
two per-record contribution functions make this exact. -/
theorem prepare_characterization_C1 (validate : List Char → Bool)
    (persons : List PersonRun) :
    prepare validate persons =
      (persons.filterMap (mkAuthorOpt validate),
       persons.filterMap (mkTextOpt validate)) := by
  show persons.foldl (prepareStep validate) ([], []) = _
  rw [prepare_foldl]
  simp

/-- Claim C5: whenever metadata submission fails — missing dataset file,
non-200 response, connection failure, or any other exception —
`submit_all` aborts before phase 2: no ingest request is attempted and
`submit_texts` is never run. -/
theorem submit_all_abort_C5 (m : MetaOutcome) (tj : TextsJson)
    (h : m = .missingFile ∨ (∃ s, s ≠ 200 ∧ m = .response s) ∨
      m = .connError ∨ m = .exc) :
    submit_metadata m = false ∧
    submit_all m tj = ⟨false, none, []⟩ := by
  have hm : submit_metadata m = false := by
    rcases h with rfl | ⟨s, hs, rfl⟩ | rfl | rfl
    · rfl
    · simp [submit_metadata, hs]
    · rfl
    · rfl
  exact ⟨hm, by simp [submit_all, hm]⟩

/-- Witness for `submit_all_abort_C5`: the spec's scenario — metadata
submission answers HTTP 500 while a non-empty texts file is available. -/
theorem submit_all_abort_C5_witness :
    (MetaOutcome.response 500 = .missingFile ∨
      (∃ s, s ≠ 200 ∧ MetaOutcome.response 500 = .response s) ∨
      MetaOutcome.response 500 = .connError ∨
      MetaOutcome.response 500 = .exc) ∧
    submit_metadata (.response 500) = false ∧
    submit_all (.response 500) (.texts [.status 200]) =
      ⟨false, none, []⟩ := by
  have h : MetaOutcome.response 500 = MetaOutcome.missingFile ∨
      (∃ s, s ≠ 200 ∧ MetaOutcome.response 500 = .response s) ∨
      MetaOutcome.response 500 = .connError ∨
      MetaOutcome.response 500 = .exc :=
    Or.inr (Or.inl ⟨500, by decide, rfl⟩)
  exact ⟨h, submit_all_abort_C5 (.response 500) (.texts [.status 200]) h⟩

theorem ingestLoop_spec :
    ∀ (items : List SubmitOutcome) (st : IngestState),
      (items.foldl ingestStep st).success
          = st.success + (items.filter itemSuccess).length ∧
      (items.foldl ingestStep st).failed
          = st.failed + (items.filter (fun o => !itemSuccess o)).length ∧
      (items.foldl ingestStep st).attempted = st.attempted ++ items := by
  intro items
  induction items with
  | nil => intro st; simp
  | cons o os ih =>
    intro st
    rw [List.foldl_cons]
    obtain ⟨h1, h2, h3⟩ := ih (ingestStep st o)
    refine ⟨?_, ?_, ?_⟩
    · rw [h1]
      cases ho : itemSuccess o
      · simp [ingestStep, ho, List.filter_cons]
      · simp [ingestStep, ho, List.filter_cons]
        omega
    · rw [h2]
      cases ho : itemSuccess o
      · simp [ingestStep, ho, List.filter_cons]
        omega
      · simp [ingestStep, ho, List.filter_cons]
    · rw [h3]
      simp [ingestStep]

/-- Claim C9: the ingest loop attempts every item in list order (the
attempted-request trace equals the input list, so no failure stops later
items), counts each item exactly once as a success or a failure — success
and failure counts are the number of 200-responses and of
non-200-or-exception outcomes respectively, summing to the number of
items — and `submit_texts` returns the success count. -/
theorem filter_length_split (items : List SubmitOutcome) :
    (items.filter itemSuccess).length
      + (items.filter (fun o => !itemSuccess o)).length = items.length := by
  induction items with
  | nil => rfl
  | cons o os ih =>
    cases ho : itemSuccess o <;> simp [List.filter_cons, ho] <;> omega

theorem submit_texts_counts_C9 (items : List SubmitOutcome) :
    (ingestLoop items).attempted = items ∧
    (ingestLoop items).success = (items.filter itemSuccess).length ∧
    (ingestLoop items).failed
        = (items.filter (fun o => !itemSuccess o)).length ∧
    (ingestLoop items).success + (ingestLoop items).failed
        = items.length ∧
    submit_texts (.texts items) = (ingestLoop items).success := by
  obtain ⟨h1, h2, h3⟩ := ingestLoop_spec items ⟨0, 0, []⟩
  have hrfl : ingestLoop items = items.foldl ingestStep ⟨0, 0, []⟩ := rfl
  have hs : (ingestLoop items).success
      = (items.filter itemSuccess).length := by
    rw [hrfl, h1]
    simp
  have hf : (ingestLoop items).failed
      = (items.filter (fun o => !itemSuccess o)).length := by
    rw [hrfl, h2]
    simp
  have ha : (ingestLoop items).attempted = items := by
    rw [hrfl, h3]
    simp
  refine ⟨ha, hs, hf, ?_, ?_⟩
  · rw [hs, hf]
    exact filter_length_split items
  · cases items with
    | nil => rfl
    | cons o os => rfl

/-- Claim C8: when `texts.json` is absent, `submit_texts` returns 0 —
without issuing any ingest request; the model is a total function, matching
the fact that the Python function raises nothing on this path (it returns
at line 68 before any request). -/
theorem submit_texts_absent_C8 :
    submit_texts .absent = 0 ∧ submitTextsAttempts .absent = [] :=
  ⟨rfl, rfl⟩

/-- Claim C10: when `texts.json` exists but its "texts" key is missing
(`data.get` defaults to the empty list) or holds an empty list,
`submit_texts` returns 0 and no ingest request is made. -/
theorem submit_texts_empty_C10 :
    (submit_texts .noKey = 0 ∧ submitTextsAttempts .noKey = []) ∧
    (submit_texts (.texts []) = 0 ∧ submitTextsAttempts (.texts []) = []) :=
  ⟨⟨rfl, rfl⟩, ⟨rfl, rfl⟩⟩

/-- Claim C6: for every full name with at least two whitespace-separated
parts, the candidate list opens with exactly the claimed sequence, in the
claimed order — surname with all lowercased given-names, then (when there
is more than one given-name) surname with the last given-name and surname
with the first given-name, then first-part_last-part; in particular for
"Sister Mary Nicholas Arnoldy" the candidate `arnoldy_nicholas` is
generated, and with the file `arnoldy_nicholas.txt` present the matcher
maps that name to that file. -/
theorem candidates_order_match_C6 :
    (∀ name : List Char, 2 ≤ (pySplit name).length →
      ∃ rest, candidates name = specCandidatesC6 name ++ rest) ∧
    ("arnoldy_nicholas").toList ∈
      candidates (("Sister Mary Nicholas Arnoldy").toList) ∧
    matchName [("arnoldy_nicholas.txt").toList]
        (("Sister Mary Nicholas Arnoldy").toList) =
      some (("arnoldy_nicholas.txt").toList) := by
  refine ⟨?_, by decide, by decide⟩
  intro name h
  refine ⟨[cleanCand (removeChar ','
    (removeChar '.' (replaceChar ' ' '_' (pyLower name))))], ?_⟩
  simp only [candidates, specCandidatesC6, if_pos h, List.map_append,
    List.append_assoc]
  simp

/-- Witness for the universally quantified part of
`candidates_order_match_C6` at the name "Rachel Adams". -/
theorem candidates_order_match_C6_witness :
    2 ≤ (pySplit (("Rachel Adams").toList)).length ∧
    ∃ rest, candidates (("Rachel Adams").toList) =
      specCandidatesC6 (("Rachel Adams").toList) ++ rest :=
  ⟨by decide, candidates_order_match_C6.1 (("Rachel Adams").toList)
    (by decide)⟩
